import Mathlib

/-!
Verification development for the link-checker crawler in `src/server.js`
(hp-link-sentinel). The definitions below are a shallow embedding of the
crawler's data model and operations; the theorems settle the behavioural
claims about URL classification, the frontier loop, the external-link
verifier, the bounded-concurrency scheduler, cancellation and the
constructor's option handling.
-/

namespace LinkSentinel

/-! ## URL model

The repository resolves and canonicalizes URLs through Node's WHATWG `URL`
class (an external library). The functions below are an executable model of
that behaviour on the URL shapes this development exercises:
`scheme://host/path#fragment` authority forms, `scheme:opaque` forms
(mailto:, javascript:), and relative references (root-relative,
protocol-relative, fragment-only, path-relative). -/

/-- A parsed URL record: scheme, optional authority host, path (query
included), and optional fragment. -/
structure UrlModel where
  scheme : String
  host : Option String
  path : String
  frag : Option String
deriving DecidableEq

/-- Characters permitted inside a URL scheme name. -/
def isSchemeChar (c : Char) : Bool :=
  c.isAlpha || c.isDigit || c = '+' || c = '-' || c = '.'

/-- Splits a leading `scheme:` part from a character list; fails when no
colon is reached through scheme characters. -/
def splitSchemeAux : List Char → Option (List Char × List Char)
  | [] => none
  | c :: cs =>
    if c = ':' then some ([], cs)
    else if isSchemeChar c then (splitSchemeAux cs).map (fun p => (c :: p.1, p.2))
    else none

/-- Splits a character list at the first `#`: the body and the optional
fragment behind it. -/
def splitFrag : List Char → List Char × Option (List Char)
  | [] => ([], none)
  | c :: cs =>
    if c = '#' then ([], some cs)
    else
      let p := splitFrag cs
      (c :: p.1, p.2)

/-- Takes characters until the predicate holds, returning the taken part and
the remainder. -/
def takeUntil (stop : Char → Bool) : List Char → List Char × List Char
  | [] => ([], [])
  | c :: cs =>
    if stop c then ([], c :: cs)
    else
      let p := takeUntil stop cs
      (c :: p.1, p.2)

/-- Parses an absolute URL string into a `UrlModel`; `none` on input with no
valid `scheme:` start, modelling the `URL` constructor throwing. -/
def parseUrl (s : String) : Option UrlModel :=
  match splitSchemeAux s.data with
  | none => none
  | some (sch, rest) =>
    match sch with
    | [] => none
    | c0 :: _ =>
      if c0.isAlpha = false then none
      else
        let bf := splitFrag rest
        match bf.1 with
        | '/' :: '/' :: hostRest =>
          let hp := takeUntil (fun c => c = '/' || c = '?') hostRest
          some ⟨String.mk sch, some (String.mk hp.1), String.mk hp.2, bf.2.map String.mk⟩
        | body => some ⟨String.mk sch, none, String.mk body, bf.2.map String.mk⟩

/-- Serializes a `UrlModel` back to its string form (the model's counterpart
of `URL.prototype.toString`). -/
def serializeUrl (u : UrlModel) : String :=
  u.scheme ++ ":" ++ (match u.host with | some h => "//" ++ h | none => "") ++ u.path
    ++ (match u.frag with | some f => "#" ++ f | none => "")

/-- Model of `normalizeUrl` (src/server.js lines 15-23): parse, drop the
fragment, serialize; `none` models the `null` return on unparseable input. -/
def normalizeUrl (s : String) : Option String :=
  (parseUrl s).map (fun u => serializeUrl { u with frag := none })

/-- Directory part of a path: everything up to and including the last slash
(used for relative reference resolution). -/
def dirOf (p : List Char) : List Char :=
  let r := (p.reverse.dropWhile (fun c => c ≠ '/')).reverse
  if r = [] then ['/'] else r

/-- Model of `new URL(href, currentUrl).toString()` (src/server.js line 118):
an absolute href stands alone; otherwise protocol-relative, root-relative,
fragment-only and path-relative forms are resolved against the base. -/
def resolveHref (href base : String) : Option String :=
  match parseUrl href with
  | some u => some (serializeUrl u)
  | none =>
    match parseUrl base with
    | none => none
    | some b =>
      match href.data with
      | [] => none
      | '/' :: '/' :: rest =>
        let bf := splitFrag rest
        let hp := takeUntil (fun c => c = '/' || c = '?') bf.1
        some (serializeUrl ⟨b.scheme, some (String.mk hp.1), String.mk hp.2, bf.2.map String.mk⟩)
      | '/' :: _ =>
        let bf := splitFrag href.data
        some (serializeUrl ⟨b.scheme, b.host, String.mk bf.1, bf.2.map String.mk⟩)
      | '#' :: rest => some (serializeUrl ⟨b.scheme, b.host, b.path, some (String.mk rest)⟩)
      | _ =>
        let bf := splitFrag href.data
        some (serializeUrl
          ⟨b.scheme, b.host, String.mk (dirOf b.path.data) ++ String.mk bf.1, bf.2.map String.mk⟩)

/-- Resolution followed by normalization, the composition performed at
src/server.js lines 117-119. -/
def resolveNorm (href base : String) : Option String :=
  (resolveHref href base).bind normalizeUrl

/-- Model of `new URL(s).hostname` (src/server.js line 131); the empty string
for opaque-path URLs, matching WHATWG behaviour. -/
def hostnameOf (s : String) : String :=
  match parseUrl s with
  | some u => u.host.getD ""
  | none => ""

/-- The scheme of a URL string, when it parses. -/
def urlScheme (s : String) : Option String :=
  (parseUrl s).map (fun u => u.scheme)

/-- Model of JavaScript `String.prototype.startsWith`. -/
def strStarts (s pre : String) : Bool := pre.data.isPrefixOf s.data

/-- Model of JavaScript `String.prototype.endsWith`. -/
def strEnds (s suf : String) : Bool := suf.data.isSuffixOf s.data

/-- Model of JavaScript `String.prototype.includes`. -/
def strContains (s pat : String) : Bool := s.data.tails.any (fun t => pat.data.isPrefixOf t)

/-! ## Data model (spec section 3, src/server.js lines 36-62) -/

/-- A frontier entry: `{ url, depth }` (src/server.js line 43). -/
structure CrawlTarget where
  url : String
  depth : Nat
deriving DecidableEq

/-- Status recorded in a broken-link report: an HTTP status code or the
`'Error'` transport-failure marker string. -/
inductive LinkStatus
  | code (n : Nat)
  | errMark
deriving DecidableEq

/-- A broken-link record `{ url, status, source }` (src/server.js line 173). -/
structure BrokenRecord where
  url : String
  status : LinkStatus
  source : String
deriving DecidableEq

/-- An external-check work item `{ url, source }` (src/server.js line 147). -/
structure ExtItem where
  url : String
  source : String
deriving DecidableEq

/-- The crawler's mutable state as read and written by the frontier loop.
Sets are represented as lists with `contains` membership, matching insertion
order of `Set.add`. -/
structure CrawlState where
  queue : List CrawlTarget
  visited : List String
  checkedLinks : List String
  brokenLinks : List BrokenRecord
  crawledCount : Nat
  externalCheckQueue : List ExtItem
deriving DecidableEq

/-- Static configuration fixed at session start (src/server.js lines 46-48,
after defaulting). -/
structure CrawlConfig where
  maxPages : Nat
  maxDepth : Nat
  allowedDomains : List String
deriving DecidableEq

/-- Events emitted through the socket sink. Log and error payload text is
elided except for the URL an error message mentions; no claim depends on the
free text. -/
inductive SockEvent
  | log
  | progress (url : String) (count queueSize depth : Nat)
  | brokenLink (url : String) (status : LinkStatus) (source : String)
  | errorEv (url : String)
  | finished (brokenLinks : List BrokenRecord)
deriving DecidableEq

/-- Model of `reportBroken` (src/server.js lines 172-176): append the record
and emit a `broken-link` event. -/
def reportBroken (st : CrawlState) (url : String) (status : LinkStatus) (source : String) :
    CrawlState × SockEvent :=
  ({ st with brokenLinks := st.brokenLinks ++ [⟨url, status, source⟩] },
    SockEvent.brokenLink url status source)

/-! ## External link verification (src/server.js lines 195-220) -/

/-- Outcome of one HTTP request as seen by axios with `validateStatus: () =>
true`: a status code of any value, or a rejected promise on transport
failure. -/
inductive ReqResult
  | status (n : Nat)
  | netError
deriving DecidableEq

/-- Model of `checkExternalLink` (src/server.js lines 195-220), parameterised
by the outcomes the server would give to the HEAD and to the GET request.
Returns the broken-link report it emits (if any) and a flag recording
whether the GET fallback request was issued; the code can issue at most one
GET per call. A HEAD transport failure reaches the catch block before any
GET is attempted. -/
def checkExternalLink (url sourceUrl : String) (head get : ReqResult) :
    Option BrokenRecord × Bool :=
  match head with
  | .netError => (some ⟨url, LinkStatus.errMark, sourceUrl⟩, false)
  | .status s =>
    if 400 ≤ s ∧ s ≠ 405 then
      match get with
      | .netError => (some ⟨url, LinkStatus.errMark, sourceUrl⟩, true)
      | .status g =>
        ((if 400 ≤ g then some ⟨url, LinkStatus.code g, sourceUrl⟩ else none), true)
    else
      ((if 400 ≤ s then some ⟨url, LinkStatus.code s, sourceUrl⟩ else none), false)

/-! ## External-check scheduler (src/server.js lines 178-193)

`processExternalQueue` runs on a single-threaded event loop, so the
read-modify-writes of `activeRequests` and the pending list are serialized;
the scheduler is therefore modelled as a transition system whose atomic
operations are a submission (line 147), a dispatch iteration of the drain
loop (lines 182-189, guarded by the loop condition with
`activeRequests < maxConcurrency`; the `isRunning` conjunct only further
restricts dispatch and the `isProcessingExternal` flag only prevents
overlapping drain loops), and a completion (the `finally` decrement at
line 187). -/

/-- The fixed concurrency ceiling (src/server.js line 51). -/
def maxConcurrency : Nat := 5

/-- The scheduler state: the pending list and the in-flight request count. -/
structure SchedState where
  pending : List ExtItem
  active : Nat
deriving DecidableEq

/-- Atomic scheduler operations. -/
inductive SchedOp
  | submit (item : ExtItem)
  | dispatch
  | complete
deriving DecidableEq

/-- One atomic scheduler step; `none` when the operation's guard does not
hold (a dispatch needs a pending item and a free slot, a completion needs an
in-flight request). -/
def schedStep (st : SchedState) (op : SchedOp) : Option SchedState :=
  match op with
  | .submit item => some { st with pending := st.pending ++ [item] }
  | .dispatch =>
    match st.pending with
    | [] => none
    | _ :: rest =>
      if st.active < maxConcurrency then some ⟨rest, st.active + 1⟩
      else none
  | .complete =>
    match st.active with
    | 0 => none
    | a + 1 => some { st with active := a }

/-- Runs a sequence of scheduler operations from a state. -/
def schedRun (ops : List SchedOp) (st : SchedState) : Option SchedState :=
  match ops with
  | [] => some st
  | op :: rest => (schedStep st op).bind (schedRun rest)

/-! ## Frontier loop (src/server.js lines 64-170) -/

/-- Outcome of the page fetch at src/server.js lines 90-94 combined with the
excluded HTML link-extraction collaborator: a status, the content-type
header (empty when absent), and the href strings of the page's anchors in
document order (an anchor with no href attribute is represented by `""`,
which line 114 skips), or a transport failure. -/
inductive PageResult
  | ok (status : Nat) (contentType : String) (hrefs : List String)
  | netError
deriving DecidableEq

/-- Model of the per-href callback body (src/server.js lines 112-150),
excluding the `processExternalQueue()` kick-off, which is modelled by the
scheduler transition system above. -/
def processHref (cfg : CrawlConfig) (currentUrl : String) (depth : Nat) (st : CrawlState)
    (href : String) : CrawlState :=
  if href = "" then st
  else
    match resolveNorm href currentUrl with
    | none => st
    | some u =>
      if strStarts u "http" = false then st
      else if st.checkedLinks.contains u then st
      else
        let st1 := { st with checkedLinks := st.checkedLinks ++ [u] }
        let host := hostnameOf u
        if cfg.allowedDomains.any (fun d => host = d || strEnds host ("." ++ d)) then
          if st1.visited.contains u = false && st1.queue.any (fun it => it.url == u) = false then
            { st1 with queue := st1.queue ++ [⟨u, depth + 1⟩] }
          else st1
        else { st1 with externalCheckQueue := st1.externalCheckQueue ++ [⟨u, currentUrl⟩] }

/-- Result of one frontier-loop iteration: the state after the body, the
events emitted during it, whether link extraction ran (the body reached
line 109), and whether the politeness delay at lines 157-158 ran (a
`continue` statement jumps back to the loop condition, past the delay). -/
structure IterOut where
  state : CrawlState
  events : List SockEvent
  extracted : Bool
  delayed : Bool

/-- Model of one iteration of the main loop body (src/server.js lines
74-158), applied after the dequeue: `item` is the shifted entry and
`st.queue` is the remaining queue. -/
def crawlIter (cfg : CrawlConfig) (fetch : String → PageResult) (item : CrawlTarget)
    (st : CrawlState) : IterOut :=
  if st.visited.contains item.url then ⟨st, [], false, false⟩
  else
    let st1 : CrawlState :=
      { st with visited := st.visited ++ [item.url], crawledCount := st.crawledCount + 1 }
    let evs0 : List SockEvent :=
      [SockEvent.progress item.url st1.crawledCount st1.queue.length item.depth, SockEvent.log]
    match fetch item.url with
    | .netError =>
      let r := reportBroken st1 item.url LinkStatus.errMark "seed"
      ⟨r.1, evs0 ++ [SockEvent.errorEv item.url, r.2], false, true⟩
    | .ok status ct hrefs =>
      if 400 ≤ status then
        let r := reportBroken st1 item.url (LinkStatus.code status) "seed"
        ⟨r.1, evs0 ++ [r.2], false, false⟩
      else if strContains ct "text/html" = false then ⟨st1, evs0, false, false⟩
      else if cfg.maxDepth ≤ item.depth then ⟨st1, evs0, false, false⟩
      else ⟨hrefs.foldl (processHref cfg item.url item.depth) st1, evs0, true, true⟩

/-- Per-iteration instrumentation record: the dequeued item and the
extraction and delay flags of that iteration. -/
structure IterInfo where
  item : CrawlTarget
  extracted : Bool
  delayed : Bool
deriving DecidableEq

/-- Result of running the main loop: the final state, the emitted events and
the dequeued items both stamped with the index of the loop-condition
evaluation that started their iteration, and `some t` when the loop
condition observed false at index `t` (`none` when the fuel ran out first,
which no theorem's run does). -/
structure MainOut where
  state : CrawlState
  events : List (Nat × SockEvent)
  iters : List (Nat × IterInfo)
  exitAt : Option Nat

/-- Model of the main frontier loop (src/server.js lines 73-159). `running`
gives the value of `this.isRunning` as observed by the loop-condition
evaluation with index `t`; the flag is only ever written at suspension
points, so per-condition-evaluation observation is the faithful granularity.
The condition order matches line 73: queue non-emptiness, the running flag,
then the page budget. -/
def mainLoop (cfg : CrawlConfig) (fetch : String → PageResult) (running : Nat → Bool) :
    Nat → Nat → CrawlState → MainOut
  | 0, t, st =>
    match st.queue with
    | [] => ⟨st, [], [], some t⟩
    | _ :: _ =>
      if running t = true ∧ st.crawledCount < cfg.maxPages then ⟨st, [], [], none⟩
      else ⟨st, [], [], some t⟩
  | fuel + 1, t, st =>
    match st.queue with
    | [] => ⟨st, [], [], some t⟩
    | item :: rest =>
      if running t = true ∧ st.crawledCount < cfg.maxPages then
        let o := crawlIter cfg fetch item { st with queue := rest }
        let r := mainLoop cfg fetch running fuel (t + 1) o.state
        ⟨r.state, o.events.map (fun e => (t, e)) ++ r.events,
          (t, ⟨item, o.extracted, o.delayed⟩) :: r.iters, r.exitAt⟩
      else ⟨st, [], [], some t⟩

/-- Model of the drain-wait loop (src/server.js lines 162-166). `extObs t`
gives the `(activeRequests, externalCheckQueue.length)` pair observed at
poll index `t`, abstracting the asynchronously completing external checks.
Returns the poll index at which the loop exits (`none` on fuel
exhaustion). -/
def drainWait (running : Nat → Bool) (extObs : Nat → Nat × Nat) :
    Nat → Nat → Option Nat
  | 0, t =>
    if (extObs t).1 = 0 ∧ (extObs t).2 = 0 then some t
    else if running t = false then some t
    else none
  | fuel + 1, t =>
    if (extObs t).1 = 0 ∧ (extObs t).2 = 0 then some t
    else if running t = false then some t
    else drainWait running extObs fuel (t + 1)

/-- Model of a whole `start()` run with a valid seed (src/server.js lines
64-170): the opening log, the main loop, the drain-wait, then the `finished`
event carrying the broken-link list accumulated so far and the closing log.
Broken-link events emitted by asynchronously running external checks are
accounted in the scheduler model, not in this sequential trace; they are
never `progress` or `finished` events. -/
def sessionRun (cfg : CrawlConfig) (fetch : String → PageResult) (running : Nat → Bool)
    (extObs : Nat → Nat × Nat) (fuelMain fuelDrain : Nat) (st0 : CrawlState) :
    Option (CrawlState × List (Nat × SockEvent)) :=
  let r := mainLoop cfg fetch running fuelMain 0 st0
  match r.exitAt with
  | none => none
  | some tE =>
    match drainWait running extObs fuelDrain tE with
    | none => none
    | some tF =>
      some (r.state,
        (0, SockEvent.log) :: r.events
          ++ [(tF, SockEvent.finished r.state.brokenLinks), (tF, SockEvent.log)])

/-! ## Constructor (src/server.js lines 38-62) -/

/-- The caller-supplied options object: each field may be absent. -/
structure CrawlOptions where
  maxPages : Option Nat
  maxDepth : Option Nat
  allowedDomains : Option (List String)
deriving DecidableEq

/-- JavaScript `x || d` defaulting on a numeric option: absent or zero
(falsy) gives the default. -/
def jsOrDefault (o : Option Nat) (d : Nat) : Nat :=
  match o with
  | none => d
  | some n => if n = 0 then d else n

/-- The seed hostname computed at src/server.js line 57: normalize the seed,
reparse, take the hostname; `none` models the catch at line 61. -/
def seedHost (startUrl : String) : Option String :=
  (normalizeUrl startUrl).bind (fun ns => (parseUrl ns).map (fun u => u.host.getD ""))

/-- Observable result of the constructor (src/server.js lines 38-62): the
fields the constructor computes, plus `callerOptions`, the contents of the
caller's options object after the constructor returns. `this.allowedDomains`
aliases a supplied `options.allowedDomains` array (line 48 assigns the array
itself), so the `push` at line 59 is visible through the caller's object;
when the array was absent a fresh `[]` is used and the caller's object is
untouched. -/
structure CtorResult where
  startUrl : Option String
  maxPages : Nat
  maxDepth : Nat
  allowedDomains : List String
  queue : List (Option String × Nat)
  callerOptions : CrawlOptions
deriving DecidableEq

/-- Model of the `Crawler` constructor (src/server.js lines 38-62). -/
def crawlerInit (startUrl : String) (opts : CrawlOptions) : CtorResult :=
  let ns := normalizeUrl startUrl
  let base := opts.allowedDomains.getD []
  let domains :=
    match seedHost startUrl with
    | none => base
    | some h => if base.contains h then base else base ++ [h]
  { startUrl := ns
    maxPages := jsOrDefault opts.maxPages 50
    maxDepth := jsOrDefault opts.maxDepth 3
    allowedDomains := domains
    queue := [(ns, 0)]
    callerOptions := { opts with allowedDomains := opts.allowedDomains.map (fun _ => domains) } }

/-! ## Event projections and concrete fixtures -/

/-- The URL of a progress event, when the event is one. -/
def progressUrl : SockEvent → Option String
  | SockEvent.progress u _ _ _ => some u
  | _ => none

/-- The count field of a progress event, when the event is one. -/
def progressCount : SockEvent → Option Nat
  | SockEvent.progress _ c _ _ => some c
  | _ => none

/-- Whether an event is a `finished` event. -/
def isFinishedEv : SockEvent → Bool
  | SockEvent.finished _ => true
  | _ => false

/-- Whether an event is a `progress` event. -/
def isProgressEv : SockEvent → Bool
  | SockEvent.progress _ _ _ _ => true
  | _ => false

/-- The URLs of the progress events of a timed trace, in emission order. -/
def progressUrls (evs : List (Nat × SockEvent)) : List String :=
  evs.filterMap (fun p => progressUrl p.2)

/-- The politeness-delay duration at src/server.js line 158, in
milliseconds. -/
def politenessDelayMs : Nat := 500

/-- A small concrete configuration for witnesses and counterexamples. -/
def cfg0 : CrawlConfig := ⟨50, 3, ["a.com"]⟩

/-- The all-empty crawl state. -/
def emptySt : CrawlState := ⟨[], [], [], [], 0, []⟩

/-- The state `start()` begins from for a valid normalized seed: the seed at
depth 0 in the queue, everything else empty (src/server.js lines 41-52). -/
def initState (u : String) : CrawlState := ⟨[⟨u, 0⟩], [], [], [], 0, []⟩

/-- A concrete fetch backend: the seed serves an HTML page with one
root-relative link, everything else answers 404. -/
def fetch0 : String → PageResult := fun u =>
  if u = "http://a.com/" then PageResult.ok 200 "text/html" ["/b"] else PageResult.ok 404 "" []

/-- A running flag that is never cleared. -/
def alwaysRun : Nat → Bool := fun _ => true

/-- A running flag cleared after the first loop-condition evaluation,
modelling a stop request taking effect at index 1. -/
def runUntil1 : Nat → Bool := fun t => decide (t < 1)

/-- An external-check observation that is always quiescent. -/
def extIdle : Nat → Nat × Nat := fun _ => (0, 0)

end LinkSentinel

namespace LinkSentinel

/-! ## Theorems -/

/-- A dequeued-and-processed page leads to the politeness delay exactly when
the body runs to its end: the spec-side characterization of the iterations
whose outcome includes the 500 ms pause (fetch transport error, or a
successful HTML page below the depth limit). -/
def specDelayCondition (cfg : CrawlConfig) (depth : Nat) : PageResult → Bool
  | PageResult.netError => true
  | PageResult.ok s ct _ =>
    decide (s < 400) && strContains ct "text/html" && decide (depth < cfg.maxDepth)

/-- Claim C1 (code bug exhibit): for an external link whose server answers
HEAD with 405 and would answer GET with 200, the code issues no follow-up
GET (second component `false`) and reports the link broken with status 405,
contrary to the claim (and to the code's own comment at line 204, which
says a 405 means HEAD is unsupported). -/
theorem claim_C1_head405_bug :
    checkExternalLink "http://ext.example/" "http://a.com/" (ReqResult.status 405)
        (ReqResult.status 200)
      = (some ⟨"http://ext.example/", LinkStatus.code 405, "http://a.com/"⟩, false) := by
  decide

/-- Claim C2: a HEAD transport failure reports the error marker with no GET;
a HEAD status that is at least 400 and not 405 triggers the single GET
fallback, whose status is final (at least 400 reports that status, below
400 reports nothing, a GET transport failure reports the error marker); any
other HEAD status is final without a GET, reported exactly when it is at
least 400. -/
theorem claim_C2_verify_protocol (url src : String) (head get : ReqResult) :
    (head = ReqResult.netError →
        checkExternalLink url src head get = (some ⟨url, LinkStatus.errMark, src⟩, false)) ∧
    (∀ s, head = ReqResult.status s → 400 ≤ s → s ≠ 405 →
        (checkExternalLink url src head get).2 = true ∧
        (get = ReqResult.netError →
            checkExternalLink url src head get = (some ⟨url, LinkStatus.errMark, src⟩, true)) ∧
        (∀ g, get = ReqResult.status g →
            checkExternalLink url src head get =
              ((if 400 ≤ g then some ⟨url, LinkStatus.code g, src⟩ else none), true))) ∧
    (∀ s, head = ReqResult.status s → (s < 400 ∨ s = 405) →
        checkExternalLink url src head get =
          ((if 400 ≤ s then some ⟨url, LinkStatus.code s, src⟩ else none), false)) := by
  refine ⟨fun h => by subst h; rfl, ?_, ?_⟩
  · intro s hs h400 h405
    subst hs
    have hc : 400 ≤ s ∧ s ≠ 405 := ⟨h400, h405⟩
    refine ⟨?_, ?_, ?_⟩
    · cases get <;> simp [checkExternalLink, if_pos hc]
    · intro hg; subst hg; simp [checkExternalLink, if_pos hc]
    · intro g hg; subst hg; simp [checkExternalLink, if_pos hc]
  · intro s hs hlt
    subst hs
    have hc : ¬(400 ≤ s ∧ s ≠ 405) := by
      rcases hlt with h | h
      · omega
      · subst h; simp
    simp [checkExternalLink, if_neg hc]

/-- Claim C2 witness: HEAD 500 with GET 200 issues the GET and emits no
report. -/
theorem claim_C2_verify_protocol_witness :
    checkExternalLink "http://ext.example/" "http://a.com/" (ReqResult.status 500)
        (ReqResult.status 200) = (none, true) := by
  have h :=
    ((claim_C2_verify_protocol "http://ext.example/" "http://a.com/" (ReqResult.status 500)
        (ReqResult.status 200)).2.1 500 rfl (by omega) (by omega)).2.2 200 rfl
  simpa using h

/-- Claim C3 counterexample: a concrete two-iteration run (the seed page
links to a page answering 404) in which the second iteration — a
broken-page outcome — does not run the politeness delay, because its
`continue` jumps back to the loop condition past line 158; the claim says
every iteration delays. -/
theorem claim_C3_counterexample :
    ((mainLoop cfg0 fetch0 alwaysRun 5 0 (initState "http://a.com/")).iters.map
        (fun p => p.2.delayed)) = [true, false] := by
  decide

/-- Claim C3 as amended: the fixed 500 ms politeness delay runs only on
iterations whose body reaches its end — a fetch transport error, or a
successfully fetched HTML page below the depth limit; iterations that exit
early through `continue` (already-visited skip, status at least 400,
non-HTML content type, depth limit reached) proceed to the next iteration
without the delay. -/
theorem claim_C3_delay_characterization (cfg : CrawlConfig) (fetch : String → PageResult)
    (item : CrawlTarget) (st : CrawlState) :
    politenessDelayMs = 500 ∧
    (crawlIter cfg fetch item st).delayed
      = (!st.visited.contains item.url && specDelayCondition cfg item.depth (fetch item.url)) := by
  refine ⟨rfl, ?_⟩
  by_cases hm : item.url ∈ st.visited
  · simp [crawlIter, hm]
  · cases hf : fetch item.url with
    | netError => simp [crawlIter, specDelayCondition, hm, hf]
    | ok s ct hs =>
      by_cases h4 : 400 ≤ s
      · have h4' : ¬s < 400 := by omega
        simp [crawlIter, specDelayCondition, hm, hf, h4, h4']
      · have h4' : s < 400 := by omega
        by_cases hct : strContains ct "text/html" = true
        · by_cases hd : cfg.maxDepth ≤ item.depth
          · have hd' : ¬item.depth < cfg.maxDepth := by omega
            simp [crawlIter, specDelayCondition, hm, hf, h4, h4', hct, hd, hd']
          · have hd' : item.depth < cfg.maxDepth := by omega
            simp [crawlIter, specDelayCondition, hm, hf, h4, h4', hct, hd, hd']
        · have hct' : strContains ct "text/html" = false := by simpa using hct
          simp [crawlIter, specDelayCondition, hm, hf, h4, h4', hct']

/-- Claim C4 as amended: an href whose resolution fails, and a resolved URL
whose canonical string does not start with the four characters `http`, are
discarded (the state is unchanged: nothing is enqueued, submitted or marked
checked). The guard is the string test at line 124, so `mailto:`,
`javascript:` and `ftp:` URLs are discarded, but any scheme whose name
merely starts with `http` (such as `httpx:`) passes it. -/
theorem claim_C4_scheme_guard (cfg : CrawlConfig) (cur : String) (d : Nat) (st : CrawlState)
    (href : String) :
    (resolveNorm href cur = none → processHref cfg cur d st href = st) ∧
    (∀ u, resolveNorm href cur = some u → strStarts u "http" = false →
        processHref cfg cur d st href = st) := by
  constructor
  · intro h
    by_cases he : href = "" <;> simp [processHref, he, h]
  · intro u hu hs
    by_cases he : href = "" <;> simp [processHref, he, hu, hs]

/-- Claim C4 witness: a `mailto:` href resolves to a URL failing the guard
and is discarded. -/
theorem claim_C4_scheme_guard_witness :
    processHref cfg0 "http://a.com/" 0 emptySt "mailto:x@y" = emptySt :=
  (claim_C4_scheme_guard cfg0 "http://a.com/" 0 emptySt "mailto:x@y").2 "mailto:x@y" rfl rfl

/-- Claim C4 counterexample: the href `httpx://evil.example/p` — scheme
`httpx`, neither `http` nor `https` — is classified (submitted to the
external check queue) rather than discarded, because its canonical string
starts with `http`. -/
theorem claim_C4_counterexample :
    (processHref cfg0 "http://a.com/" 0 emptySt "httpx://evil.example/p").externalCheckQueue
        = [⟨"httpx://evil.example/p", "http://a.com/"⟩] ∧
    urlScheme "httpx://evil.example/p" = some "httpx" ∧
    urlScheme "httpx://evil.example/p" ≠ some "http" ∧
    urlScheme "httpx://evil.example/p" ≠ some "https" := by
  refine ⟨by decide, by decide, by decide, by decide⟩

/-- One scheduler step never pushes the in-flight count above the ceiling:
a dispatch is guarded by `active < maxConcurrency`, a completion decrements,
a submission leaves the count unchanged. -/
theorem schedStep_active_le {st st' : SchedState} {op : SchedOp}
    (hle : st.active ≤ maxConcurrency) (h : schedStep st op = some st') :
    st'.active ≤ maxConcurrency := by
  cases op with
  | submit item =>
    simp [schedStep] at h
    subst h
    exact hle
  | dispatch =>
    cases hp : st.pending with
    | nil => simp [schedStep, hp] at h
    | cons a rest =>
      simp [schedStep, hp] at h
      rcases h with ⟨hlt, h⟩
      subst h
      exact hlt
  | complete =>
    cases ha : st.active with
    | zero => simp [schedStep, ha] at h
    | succ a =>
      simp [schedStep, ha] at h
      subst h
      simp at hle ⊢
      omega

/-- Runs of the scheduler preserve the in-flight bound. -/
theorem schedRun_active_le :
    ∀ (ops : List SchedOp) (st st' : SchedState), st.active ≤ maxConcurrency →
      schedRun ops st = some st' → st'.active ≤ maxConcurrency := by
  intro ops
  induction ops with
  | nil =>
    intro st st' hle h
    simp [schedRun] at h
    subst h
    exact hle
  | cons op rest ih =>
    intro st st' hle h
    cases h1 : schedStep st op with
    | none => simp [schedRun, h1] at h
    | some st1 =>
      simp only [schedRun, h1, Option.bind_some] at h
      exact ih st1 st' (schedStep_active_le hle h1) h

/-- Claim C8: the ceiling is the fixed constant 5, and along every sequence
of scheduler operations starting from the idle state (no pending items, no
in-flight request), the in-flight external-verification count never exceeds
it — each dispatch of the drain loop is guarded by the
`activeRequests < maxConcurrency` conjunct of the loop condition, and the
single-threaded event loop serializes the counter updates. -/
theorem claim_C8_concurrency_ceiling (ops : List SchedOp) (st' : SchedState) :
    maxConcurrency = 5 ∧
    (schedRun ops ⟨[], 0⟩ = some st' → st'.active ≤ maxConcurrency) :=
  ⟨rfl, fun h => schedRun_active_le ops ⟨[], 0⟩ st' (by simp) h⟩

/-- Claim C8 witness: submitting one item and dispatching it reaches a state
with one in-flight request, within the ceiling. -/
theorem claim_C8_concurrency_ceiling_witness :
    (⟨[], 1⟩ : SchedState).active ≤ maxConcurrency :=
  (claim_C8_concurrency_ceiling
      [SchedOp.submit ⟨"http://ext.example/", "http://a.com/"⟩, SchedOp.dispatch]
      ⟨[], 1⟩).2 (by decide)

/-- Claim C10: when the caller supplies an `allowedDomains` array that does
not contain the seed URL's hostname, the constructor pushes the hostname
into that very array — after construction the caller's options object shows
the extended list (the crawler's list and the caller's are the same array) —
while the caller's `maxPages` and `maxDepth` fields are untouched. -/
theorem claim_C10_options_mutation (startUrl : String) (opts : CrawlOptions)
    (l : List String) (h : String)
    (hdom : opts.allowedDomains = some l)
    (hhost : seedHost startUrl = some h)
    (hnotin : l.contains h = false) :
    (crawlerInit startUrl opts).callerOptions.allowedDomains = some (l ++ [h]) ∧
    (crawlerInit startUrl opts).callerOptions.maxPages = opts.maxPages ∧
    (crawlerInit startUrl opts).callerOptions.maxDepth = opts.maxDepth ∧
    (crawlerInit startUrl opts).allowedDomains = l ++ [h] := by
  have hn : ¬(h ∈ l) := by simpa using hnotin
  refine ⟨?_, ?_, ?_, ?_⟩ <;> simp [crawlerInit, hdom, hhost, hn]

/-- Claim C10 witness: seed `http://a.com/` with a supplied
`allowedDomains = ["b.com"]` leaves the caller's array extended to
`["b.com", "a.com"]` and the numeric options unchanged. -/
theorem claim_C10_options_mutation_witness :
    (crawlerInit "http://a.com/" ⟨some 10, some 2, some ["b.com"]⟩).callerOptions.allowedDomains
        = some (["b.com"] ++ ["a.com"]) ∧
    (crawlerInit "http://a.com/"
        ⟨some 10, some 2, some ["b.com"]⟩).callerOptions.maxPages = some 10 ∧
    (crawlerInit "http://a.com/"
        ⟨some 10, some 2, some ["b.com"]⟩).callerOptions.maxDepth = some 2 ∧
    (crawlerInit "http://a.com/"
        ⟨some 10, some 2, some ["b.com"]⟩).allowedDomains = ["b.com"] ++ ["a.com"] :=
  claim_C10_options_mutation "http://a.com/" ⟨some 10, some 2, some ["b.com"]⟩
    ["b.com"] "a.com" rfl rfl (by decide)


/-- The per-href body never touches the visited set. -/
theorem processHref_visited (cfg : CrawlConfig) (cur : String) (d : Nat) (st : CrawlState)
    (href : String) : (processHref cfg cur d st href).visited = st.visited := by
  unfold processHref
  dsimp only
  repeat' split
  all_goals rfl

/-- The per-href body never touches the page counter. -/
theorem processHref_crawledCount (cfg : CrawlConfig) (cur : String) (d : Nat) (st : CrawlState)
    (href : String) : (processHref cfg cur d st href).crawledCount = st.crawledCount := by
  unfold processHref
  dsimp only
  repeat' split
  all_goals rfl

/-- The per-href body only ever appends entries of depth `d + 1` to the
frontier. -/
theorem processHref_queue_mem (cfg : CrawlConfig) (cur : String) (d : Nat) (st : CrawlState)
    (href : String) (it : CrawlTarget) (h : it ∈ (processHref cfg cur d st href).queue) :
    it ∈ st.queue ∨ it.depth = d + 1 := by
  revert h
  unfold processHref
  dsimp only
  repeat' split
  all_goals intro h
  all_goals try exact Or.inl h
  rcases List.mem_append.mp h with h1 | h1
  · exact Or.inl h1
  · simp at h1
    subst h1
    exact Or.inr rfl

/-- Folding the per-href body over a href list never touches the visited
set. -/
theorem foldl_processHref_visited (cfg : CrawlConfig) (cur : String) (d : Nat) :
    ∀ (hs : List String) (st : CrawlState),
      (hs.foldl (processHref cfg cur d) st).visited = st.visited := by
  intro hs
  induction hs with
  | nil => intro st; rfl
  | cons a t ih => intro st; rw [List.foldl_cons, ih, processHref_visited]

/-- Folding the per-href body over a href list never touches the page
counter. -/
theorem foldl_processHref_crawledCount (cfg : CrawlConfig) (cur : String) (d : Nat) :
    ∀ (hs : List String) (st : CrawlState),
      (hs.foldl (processHref cfg cur d) st).crawledCount = st.crawledCount := by
  intro hs
  induction hs with
  | nil => intro st; rfl
  | cons a t ih => intro st; rw [List.foldl_cons, ih, processHref_crawledCount]

/-- Folding the per-href body only ever appends entries of depth `d + 1` to
the frontier. -/
theorem foldl_processHref_queue_mem (cfg : CrawlConfig) (cur : String) (d : Nat) :
    ∀ (hs : List String) (st : CrawlState) (it : CrawlTarget),
      it ∈ (hs.foldl (processHref cfg cur d) st).queue → it ∈ st.queue ∨ it.depth = d + 1 := by
  intro hs
  induction hs with
  | nil => intro st it h; exact Or.inl h
  | cons a t ih =>
    intro st it h
    rw [List.foldl_cons] at h
    rcases ih (processHref cfg cur d st a) it h with h1 | h1
    · exact processHref_queue_mem cfg cur d st a it h1
    · exact Or.inr h1

/-- An already-visited dequeued URL makes the iteration a pure skip. -/
theorem crawlIter_skip (cfg : CrawlConfig) (fetch : String → PageResult) (item : CrawlTarget)
    (st : CrawlState) (h : item.url ∈ st.visited) :
    crawlIter cfg fetch item st = ⟨st, [], false, false⟩ := by
  simp [crawlIter, h]

/-- A fresh dequeued URL is appended to the visited set by its iteration. -/
theorem crawlIter_visited (cfg : CrawlConfig) (fetch : String → PageResult) (item : CrawlTarget)
    (st : CrawlState) (h : ¬item.url ∈ st.visited) :
    (crawlIter cfg fetch item st).state.visited = st.visited ++ [item.url] := by
  cases hf : fetch item.url with
  | netError => simp [crawlIter, h, hf, reportBroken]
  | ok status ct hrefs =>
    simp only [crawlIter, h]
    rw [if_neg (by simpa using h)]
    simp only [hf]
    split_ifs <;> simp [reportBroken, foldl_processHref_visited]

/-- A fresh dequeued URL is counted exactly once by its iteration. -/
theorem crawlIter_crawledCount (cfg : CrawlConfig) (fetch : String → PageResult)
    (item : CrawlTarget) (st : CrawlState) (h : ¬item.url ∈ st.visited) :
    (crawlIter cfg fetch item st).state.crawledCount = st.crawledCount + 1 := by
  cases hf : fetch item.url with
  | netError => simp [crawlIter, h, hf, reportBroken]
  | ok status ct hrefs =>
    simp only [crawlIter, h]
    rw [if_neg (by simpa using h)]
    simp only [hf]
    split_ifs <;> simp [reportBroken, foldl_processHref_crawledCount]

/-- The progress events of a fresh iteration carry exactly the dequeued
URL. -/
theorem crawlIter_progress_fresh (cfg : CrawlConfig) (fetch : String → PageResult)
    (item : CrawlTarget) (st : CrawlState) (h : ¬item.url ∈ st.visited) :
    (crawlIter cfg fetch item st).events.filterMap progressUrl = [item.url] := by
  cases hf : fetch item.url with
  | netError => simp [crawlIter, h, hf, reportBroken, progressUrl]
  | ok status ct hrefs =>
    simp only [crawlIter, h]
    rw [if_neg (by simpa using h)]
    simp only [hf]
    split_ifs <;> simp [reportBroken, progressUrl]

/-- Every progress event of an iteration carries the incremented counter
value, so its count field is bounded by the pre-iteration counter plus
one. -/
theorem crawlIter_progressCount_le (cfg : CrawlConfig) (fetch : String → PageResult)
    (item : CrawlTarget) (st : CrawlState) (e : SockEvent)
    (he : e ∈ (crawlIter cfg fetch item st).events) :
    (progressCount e).getD 0 ≤ st.crawledCount + 1 := by
  revert he
  by_cases h : item.url ∈ st.visited
  · rw [crawlIter_skip cfg fetch item st h]
    intro he
    simp at he
  · cases hf : fetch item.url with
    | netError =>
      simp [crawlIter, h, hf, reportBroken]
      rintro (rfl | rfl | rfl | rfl) <;> simp [progressCount]
    | ok status ct hrefs =>
      simp only [crawlIter, h]
      rw [if_neg (by simpa using h)]
      simp only [hf]
      split_ifs <;> simp [reportBroken] <;>
        rintro (rfl | rfl | rfl) <;> simp [progressCount]

/-- No iteration ever emits a `finished` event. -/
theorem crawlIter_no_finished (cfg : CrawlConfig) (fetch : String → PageResult)
    (item : CrawlTarget) (st : CrawlState) (e : SockEvent)
    (he : e ∈ (crawlIter cfg fetch item st).events) : isFinishedEv e = false := by
  revert he
  by_cases h : item.url ∈ st.visited
  · rw [crawlIter_skip cfg fetch item st h]
    intro he
    simp at he
  · cases hf : fetch item.url with
    | netError =>
      simp [crawlIter, h, hf, reportBroken]
      rintro (rfl | rfl | rfl | rfl) <;> rfl
    | ok status ct hrefs =>
      simp only [crawlIter, h]
      rw [if_neg (by simpa using h)]
      simp only [hf]
      split_ifs <;> simp [reportBroken] <;>
        rintro (rfl | rfl | rfl) <;> rfl

/-- Link extraction runs only below the depth limit. -/
theorem crawlIter_extracted_depth (cfg : CrawlConfig) (fetch : String → PageResult)
    (item : CrawlTarget) (st : CrawlState)
    (h : (crawlIter cfg fetch item st).extracted = true) : item.depth < cfg.maxDepth := by
  revert h
  by_cases hv : item.url ∈ st.visited
  · rw [crawlIter_skip cfg fetch item st hv]
    intro h
    simp at h
  · cases hf : fetch item.url with
    | netError =>
      simp [crawlIter, hv, hf, reportBroken]
    | ok status ct hrefs =>
      simp only [crawlIter, hv]
      rw [if_neg (by simpa using hv)]
      simp only [hf]
      split_ifs with h1 h2 h3 <;> intro h
      · simp [reportBroken] at h
      · simp at h
      · simp at h
      · omega

/-- An iteration only ever appends frontier entries one level deeper than
the dequeued item, and only when that item is below the depth limit. -/
theorem crawlIter_queue_mem (cfg : CrawlConfig) (fetch : String → PageResult)
    (item : CrawlTarget) (st : CrawlState) (it : CrawlTarget)
    (h : it ∈ (crawlIter cfg fetch item st).state.queue) :
    it ∈ st.queue ∨ (it.depth = item.depth + 1 ∧ item.depth < cfg.maxDepth) := by
  revert h
  by_cases hv : item.url ∈ st.visited
  · rw [crawlIter_skip cfg fetch item st hv]
    intro h
    exact Or.inl h
  · cases hf : fetch item.url with
    | netError =>
      simp [crawlIter, hv, hf, reportBroken]
      intro h
      exact Or.inl h
    | ok status ct hrefs =>
      simp only [crawlIter, hv]
      rw [if_neg (by simpa using hv)]
      simp only [hf]
      split_ifs with h1 h2 h3 <;> intro h
      · simp [reportBroken] at h
        exact Or.inl h
      · exact Or.inl h
      · exact Or.inl h
      · rcases foldl_processHref_queue_mem cfg item.url item.depth hrefs _ it h with h4 | h4
        · exact Or.inl h4
        · exact Or.inr ⟨h4, by omega⟩


/-- Progress URLs of a stamped-and-appended event list. -/
theorem progressUrls_stamp_append (t : Nat) (evs : List SockEvent)
    (rest : List (Nat × SockEvent)) :
    progressUrls (evs.map (fun e => (t, e)) ++ rest)
      = evs.filterMap progressUrl ++ progressUrls rest := by
  simp only [progressUrls, List.filterMap_append, List.filterMap_map]
  rfl

/-- Unfolding equation for a main-loop step whose condition holds. -/
theorem mainLoop_succ_run (cfg : CrawlConfig) (fetch : String → PageResult)
    (running : Nat → Bool) (fuel t : Nat) (st : CrawlState) (item : CrawlTarget)
    (rest : List CrawlTarget) (hq : st.queue = item :: rest)
    (hc : running t = true ∧ st.crawledCount < cfg.maxPages) :
    mainLoop cfg fetch running (fuel + 1) t st =
      let o := crawlIter cfg fetch item { st with queue := rest }
      let r := mainLoop cfg fetch running fuel (t + 1) o.state
      ⟨r.state, o.events.map (fun e => (t, e)) ++ r.events,
        (t, ⟨item, o.extracted, o.delayed⟩) :: r.iters, r.exitAt⟩ := by
  simp [mainLoop, hq, hc]

/-- Main-loop invariant for the progress stream: every emitted progress URL
was fresh at loop entry and is visited afterwards, the visited set only
grows, and the progress URLs are pairwise distinct. -/
theorem mainLoop_progress_inv (cfg : CrawlConfig) (fetch : String → PageResult)
    (running : Nat → Bool) :
    ∀ (fuel t : Nat) (st : CrawlState),
      (∀ u, u ∈ progressUrls (mainLoop cfg fetch running fuel t st).events →
          ¬u ∈ st.visited) ∧
      (∀ u, u ∈ st.visited → u ∈ (mainLoop cfg fetch running fuel t st).state.visited) ∧
      (∀ u, u ∈ progressUrls (mainLoop cfg fetch running fuel t st).events →
          u ∈ (mainLoop cfg fetch running fuel t st).state.visited) ∧
      (progressUrls (mainLoop cfg fetch running fuel t st).events).Nodup := by
  intro fuel
  induction fuel with
  | zero =>
    intro t st
    cases hq : st.queue with
    | nil => simp [mainLoop, hq, progressUrls]
    | cons a l =>
      by_cases hc : running t = true ∧ st.crawledCount < cfg.maxPages <;>
        simp [mainLoop, hq, hc, progressUrls]
  | succ fuel ih =>
    intro t st
    cases hq : st.queue with
    | nil => simp [mainLoop, hq, progressUrls]
    | cons item rest =>
      by_cases hc : running t = true ∧ st.crawledCount < cfg.maxPages
      · rw [mainLoop_succ_run cfg fetch running fuel t st item rest hq hc]
        dsimp only
        rw [progressUrls_stamp_append]
        by_cases hv : item.url ∈ st.visited
        · have hv' : item.url ∈ ({ st with queue := rest } : CrawlState).visited := hv
          rw [crawlIter_skip cfg fetch item _ hv']
          dsimp only
          simp only [List.filterMap_nil, List.nil_append]
          exact ih (t + 1) { st with queue := rest }
        · have hv' : ¬item.url ∈ ({ st with queue := rest } : CrawlState).visited := hv
          have hvis := crawlIter_visited cfg fetch item { st with queue := rest } hv'
          have hprog := crawlIter_progress_fresh cfg fetch item { st with queue := rest } hv'
          rw [hprog]
          obtain ⟨ih1, ih2, ih3, ih4⟩ :=
            ih (t + 1) (crawlIter cfg fetch item { st with queue := rest }).state
          refine ⟨?_, ?_, ?_, ?_⟩
          · intro u hu
            rcases List.mem_append.mp hu with h1 | h1
            · simp at h1
              subst h1
              exact hv
            · intro hmem
              exact ih1 u h1 (by rw [hvis]; exact List.mem_append_left _ hmem)
          · intro u hu
            exact ih2 u (by rw [hvis]; exact List.mem_append_left _ hu)
          · intro u hu
            rcases List.mem_append.mp hu with h1 | h1
            · simp at h1
              subst h1
              exact ih2 _ (by rw [hvis]; exact List.mem_append_right _ (by simp))
            · exact ih3 u h1
          · rw [List.singleton_append, List.nodup_cons]
            refine ⟨?_, ih4⟩
            intro hmem
            exact ih1 _ hmem (by rw [hvis]; exact List.mem_append_right _ (by simp))
      · simp [mainLoop, hq, hc, progressUrls]

/-- Claim C5: within one crawl session no URL appears twice in the emitted
progress sequence — once a normalized URL has been dequeued and processed
(the visited check at line 76 failed and the URL was added at line 77), any
later dequeue of it is skipped and produces no progress event, so the
progress URLs are pairwise distinct. -/
theorem claim_C5_progress_urls_nodup (cfg : CrawlConfig) (fetch : String → PageResult)
    (running : Nat → Bool) (fuel t : Nat) (st : CrawlState) :
    (progressUrls (mainLoop cfg fetch running fuel t st).events).Nodup :=
  (mainLoop_progress_inv cfg fetch running fuel t st).2.2.2

/-- Main-loop invariant for the depth budget: if every queued entry is
within the depth limit, then every dequeued entry is, and extraction only
runs strictly below the limit. -/
theorem mainLoop_depth_inv (cfg : CrawlConfig) (fetch : String → PageResult)
    (running : Nat → Bool) :
    ∀ (fuel t : Nat) (st : CrawlState),
      (∀ it ∈ st.queue, it.depth ≤ cfg.maxDepth) →
      ∀ p ∈ (mainLoop cfg fetch running fuel t st).iters,
        p.2.item.depth ≤ cfg.maxDepth ∧ (p.2.extracted = true → p.2.item.depth < cfg.maxDepth) := by
  intro fuel
  induction fuel with
  | zero =>
    intro t st hq0
    cases hq : st.queue with
    | nil => simp [mainLoop, hq]
    | cons a l =>
      by_cases hc : running t = true ∧ st.crawledCount < cfg.maxPages <;>
        simp [mainLoop, hq, hc]
  | succ fuel ih =>
    intro t st hq0
    cases hq : st.queue with
    | nil => simp [mainLoop, hq]
    | cons item rest =>
      by_cases hc : running t = true ∧ st.crawledCount < cfg.maxPages
      · rw [mainLoop_succ_run cfg fetch running fuel t st item rest hq hc]
        dsimp only
        intro p hp
        rcases List.mem_cons.mp hp with h1 | h1
        · subst h1
          dsimp only
          refine ⟨hq0 item (by rw [hq]; exact List.mem_cons_self _ _), ?_⟩
          intro hext
          exact crawlIter_extracted_depth cfg fetch item _ hext
        · refine ih (t + 1) (crawlIter cfg fetch item { st with queue := rest }).state ?_ p h1
          intro it hit
          rcases crawlIter_queue_mem cfg fetch item _ it hit with h2 | h2
          · exact hq0 it (by rw [hq]; exact List.mem_cons_of_mem _ h2)
          · rcases h2 with ⟨h2a, h2b⟩
            omega
      · simp [mainLoop, hq, hc]

/-- Claim C6: from a frontier whose entries are all within the depth limit
(as the session's initial frontier is, seeded at depth 0), every dequeued
frontier item has depth at most `maxDepth`, and link extraction runs for it
only when its depth is strictly below `maxDepth` — at `depth = maxDepth`
the page is still fetched and status-checked, but line 107 skips
extraction. -/
theorem claim_C6_depth_budget (cfg : CrawlConfig) (fetch : String → PageResult)
    (running : Nat → Bool) (fuel t : Nat) (st : CrawlState)
    (hinv : ∀ it ∈ st.queue, it.depth ≤ cfg.maxDepth) :
    ∀ p ∈ (mainLoop cfg fetch running fuel t st).iters,
      p.2.item.depth ≤ cfg.maxDepth ∧ (p.2.extracted = true → p.2.item.depth < cfg.maxDepth) :=
  mainLoop_depth_inv cfg fetch running fuel t st hinv

/-- Claim C6 witness: the seed iteration of the concrete two-page run is
within the depth budget and extracted below the limit. -/
theorem claim_C6_depth_budget_witness :
    ((0, ⟨⟨"http://a.com/", 0⟩, true, true⟩) : Nat × IterInfo).2.item.depth ≤ cfg0.maxDepth ∧
    (((0, ⟨⟨"http://a.com/", 0⟩, true, true⟩) : Nat × IterInfo).2.extracted = true →
      ((0, ⟨⟨"http://a.com/", 0⟩, true, true⟩) : Nat × IterInfo).2.item.depth < cfg0.maxDepth) :=
  claim_C6_depth_budget cfg0 fetch0 alwaysRun 5 0 (initState "http://a.com/") (by decide)
    (0, ⟨⟨"http://a.com/", 0⟩, true, true⟩) (by decide)

/-- Main-loop invariant for the page budget: the loop condition at line 73
admits an iteration only while the counter is strictly below `maxPages`, so
the counter never exceeds it and every emitted progress count is within
it. -/
theorem mainLoop_count_inv (cfg : CrawlConfig) (fetch : String → PageResult)
    (running : Nat → Bool) :
    ∀ (fuel t : Nat) (st : CrawlState), st.crawledCount ≤ cfg.maxPages →
      (mainLoop cfg fetch running fuel t st).state.crawledCount ≤ cfg.maxPages ∧
      ∀ p ∈ (mainLoop cfg fetch running fuel t st).events,
        (progressCount p.2).getD 0 ≤ cfg.maxPages := by
  intro fuel
  induction fuel with
  | zero =>
    intro t st hcount
    cases hq : st.queue with
    | nil => simpa [mainLoop, hq] using hcount
    | cons a l =>
      by_cases hc : running t = true ∧ st.crawledCount < cfg.maxPages <;>
        simpa [mainLoop, hq, hc] using hcount
  | succ fuel ih =>
    intro t st hcount
    cases hq : st.queue with
    | nil => simpa [mainLoop, hq] using hcount
    | cons item rest =>
      by_cases hc : running t = true ∧ st.crawledCount < cfg.maxPages
      · rw [mainLoop_succ_run cfg fetch running fuel t st item rest hq hc]
        dsimp only
        by_cases hv : item.url ∈ st.visited
        · have hv' : item.url ∈ ({ st with queue := rest } : CrawlState).visited := hv
          rw [crawlIter_skip cfg fetch item _ hv']
          dsimp only
          simp only [List.map_nil, List.nil_append]
          exact ih (t + 1) { st with queue := rest } hcount
        · have hv' : ¬item.url ∈ ({ st with queue := rest } : CrawlState).visited := hv
          have hcnt := crawlIter_crawledCount cfg fetch item { st with queue := rest } hv'
          have hle : (crawlIter cfg fetch item
              { st with queue := rest }).state.crawledCount ≤ cfg.maxPages := by
            rw [hcnt]
            have := hc.2
            dsimp only
            omega
          obtain ⟨iha, ihb⟩ :=
            ih (t + 1) (crawlIter cfg fetch item { st with queue := rest }).state hle
          refine ⟨iha, ?_⟩
          intro p hp
          rcases List.mem_append.mp hp with h1 | h1
          · rcases List.mem_map.mp h1 with ⟨e, he, rfl⟩
            have hb := crawlIter_progressCount_le cfg fetch item { st with queue := rest } e he
            dsimp only at hb ⊢
            have := hc.2
            omega
          · exact ihb p h1
      · simpa [mainLoop, hq, hc] using hcount

/-- Claim C7: in every crawl session, at every point of its execution, the
number of pages crawled is at most `maxPages`: from any state within the
budget, the final counter and the counter carried by every emitted progress
event stay within `maxPages`. -/
theorem claim_C7_page_budget (cfg : CrawlConfig) (fetch : String → PageResult)
    (running : Nat → Bool) (fuel t : Nat) (st : CrawlState)
    (hcount : st.crawledCount ≤ cfg.maxPages) :
    (mainLoop cfg fetch running fuel t st).state.crawledCount ≤ cfg.maxPages ∧
    ∀ p ∈ (mainLoop cfg fetch running fuel t st).events,
      (progressCount p.2).getD 0 ≤ cfg.maxPages :=
  mainLoop_count_inv cfg fetch running fuel t st hcount

/-- Claim C7 witness: the concrete two-page run ends within the page
budget. -/
theorem claim_C7_page_budget_witness :
    (mainLoop cfg0 fetch0 alwaysRun 5 0 (initState "http://a.com/")).state.crawledCount
      ≤ cfg0.maxPages :=
  (claim_C7_page_budget cfg0 fetch0 alwaysRun 5 0 (initState "http://a.com/") (by decide)).1


/-- Every event of a main-loop run is emitted by an iteration whose
loop-condition evaluation observed the running flag true. -/
theorem mainLoop_events_running (cfg : CrawlConfig) (fetch : String → PageResult)
    (running : Nat → Bool) :
    ∀ (fuel t : Nat) (st : CrawlState),
      ∀ p ∈ (mainLoop cfg fetch running fuel t st).events, running p.1 = true := by
  intro fuel
  induction fuel with
  | zero =>
    intro t st p hp
    cases hq : st.queue with
    | nil => simp [mainLoop, hq] at hp
    | cons a l =>
      by_cases hc : running t = true ∧ st.crawledCount < cfg.maxPages <;>
        simp [mainLoop, hq, hc] at hp
  | succ fuel ih =>
    intro t st p hp
    cases hq : st.queue with
    | nil => simp [mainLoop, hq] at hp
    | cons item rest =>
      by_cases hc : running t = true ∧ st.crawledCount < cfg.maxPages
      · rw [mainLoop_succ_run cfg fetch running fuel t st item rest hq hc] at hp
        dsimp only at hp
        rcases List.mem_append.mp hp with h1 | h1
        · rcases List.mem_map.mp h1 with ⟨e, _, rfl⟩
          exact hc.1
        · exact ih (t + 1) _ p h1
      · simp [mainLoop, hq, hc] at hp

/-- The main loop never emits a `finished` event; only line 168, after the
loop, does. -/
theorem mainLoop_no_finished (cfg : CrawlConfig) (fetch : String → PageResult)
    (running : Nat → Bool) :
    ∀ (fuel t : Nat) (st : CrawlState),
      ∀ p ∈ (mainLoop cfg fetch running fuel t st).events, isFinishedEv p.2 = false := by
  intro fuel
  induction fuel with
  | zero =>
    intro t st p hp
    cases hq : st.queue with
    | nil => simp [mainLoop, hq] at hp
    | cons a l =>
      by_cases hc : running t = true ∧ st.crawledCount < cfg.maxPages <;>
        simp [mainLoop, hq, hc] at hp
  | succ fuel ih =>
    intro t st p hp
    cases hq : st.queue with
    | nil => simp [mainLoop, hq] at hp
    | cons item rest =>
      by_cases hc : running t = true ∧ st.crawledCount < cfg.maxPages
      · rw [mainLoop_succ_run cfg fetch running fuel t st item rest hq hc] at hp
        dsimp only at hp
        rcases List.mem_append.mp hp with h1 | h1
        · rcases List.mem_map.mp h1 with ⟨e, he, rfl⟩
          exact crawlIter_no_finished cfg fetch item _ e he
        · exact ih (t + 1) _ p h1
      · simp [mainLoop, hq, hc] at hp

/-- Once the running flag is cleared from index `k` on, the main loop exits
normally (given fuel for the at most `k` iterations before the flag is
observed), at an index no later than `k`. -/
theorem mainLoop_stop_exit (cfg : CrawlConfig) (fetch : String → PageResult)
    (running : Nat → Bool) (k : Nat) (hstop : ∀ t', k ≤ t' → running t' = false) :
    ∀ (fuel t : Nat) (st : CrawlState), t ≤ k → k - t ≤ fuel →
      ∃ tE, (mainLoop cfg fetch running fuel t st).exitAt = some tE ∧ tE ≤ k := by
  intro fuel
  induction fuel with
  | zero =>
    intro t st ht hf
    have htk : t = k := by omega
    subst htk
    cases hq : st.queue with
    | nil => exact ⟨t, by simp [mainLoop, hq], le_rfl⟩
    | cons a l =>
      have hr : running t = false := hstop t le_rfl
      exact ⟨t, by simp [mainLoop, hq, hr], le_rfl⟩
  | succ fuel ih =>
    intro t st ht hf
    cases hq : st.queue with
    | nil => exact ⟨t, by simp [mainLoop, hq], ht⟩
    | cons item rest =>
      by_cases hc : running t = true ∧ st.crawledCount < cfg.maxPages
      · have htk : t < k := by
          rcases Nat.eq_or_lt_of_le ht with he | hl
          · exfalso
            have := hstop k le_rfl
            rw [he] at hc
            rw [hc.1] at this
            exact Bool.noConfusion this
          · exact hl
        rw [mainLoop_succ_run cfg fetch running fuel t st item rest hq hc]
        dsimp only
        exact ih (t + 1) (crawlIter cfg fetch item { st with queue := rest }).state
          (by omega) (by omega)
      · exact ⟨t, by simp [mainLoop, hq, hc], ht⟩

/-- Once the running flag is cleared from index `k` on, the drain-wait loop
exits (by quiescence or by the break at line 163) within the fuel. -/
theorem drainWait_stop_exit (running : Nat → Bool) (extObs : Nat → Nat × Nat) (k : Nat)
    (hstop : ∀ t', k ≤ t' → running t' = false) :
    ∀ (fuel t : Nat), t ≤ k → k - t ≤ fuel →
      ∃ tF, drainWait running extObs fuel t = some tF := by
  intro fuel
  induction fuel with
  | zero =>
    intro t ht hf
    have htk : t = k := by omega
    subst htk
    by_cases hqu : (extObs t).1 = 0 ∧ (extObs t).2 = 0
    · exact ⟨t, by simp [drainWait, hqu]⟩
    · have hr : running t = false := hstop t le_rfl
      exact ⟨t, by simp [drainWait, hqu, hr]⟩
  | succ fuel ih =>
    intro t ht hf
    by_cases hqu : (extObs t).1 = 0 ∧ (extObs t).2 = 0
    · exact ⟨t, by simp [drainWait, hqu]⟩
    · by_cases hr : running t = false
      · exact ⟨t, by simp [drainWait, hqu, hr]⟩
      · have htk : t < k := by
          rcases Nat.eq_or_lt_of_le ht with he | hl
          · exfalso
            apply hr
            rw [he]
            exact hstop k le_rfl
          · exact hl
        obtain ⟨tF, htF⟩ := ih (t + 1) (by omega) (by omega)
        exact ⟨tF, by simp [drainWait, hqu, hr, htF]⟩

/-- Claim C9: if a stop request clears the running flag from
condition-evaluation index `k` on, the session still terminates and emits
exactly one `finished` event, carrying the broken-link list accumulated so
far; and every `progress` event of the session was emitted by an iteration
that observed the flag true — none after the stop takes effect. -/
theorem claim_C9_stop_semantics (cfg : CrawlConfig) (fetch : String → PageResult)
    (running : Nat → Bool) (extObs : Nat → Nat × Nat) (k fuelMain fuelDrain : Nat)
    (st0 : CrawlState)
    (hstop : ∀ t', k ≤ t' → running t' = false)
    (hfm : k ≤ fuelMain) (hfd : k ≤ fuelDrain) :
    ∃ stF evs, sessionRun cfg fetch running extObs fuelMain fuelDrain st0 = some (stF, evs) ∧
      evs.countP (fun p => isFinishedEv p.2) = 1 ∧
      (∃ tF, (tF, SockEvent.finished stF.brokenLinks) ∈ evs) ∧
      ∀ p ∈ evs, isProgressEv p.2 = true → running p.1 = true := by
  obtain ⟨tE, htE, htEk⟩ :=
    mainLoop_stop_exit cfg fetch running k hstop fuelMain 0 st0 (by omega) (by omega)
  obtain ⟨tF, htF⟩ := drainWait_stop_exit running extObs k hstop fuelDrain tE htEk (by omega)
  refine ⟨(mainLoop cfg fetch running fuelMain 0 st0).state,
    (0, SockEvent.log) :: (mainLoop cfg fetch running fuelMain 0 st0).events
      ++ [(tF, SockEvent.finished (mainLoop cfg fetch running fuelMain 0 st0).state.brokenLinks),
        (tF, SockEvent.log)], ?_, ?_, ?_, ?_⟩
  · simp [sessionRun, htE, htF]
  · have h0 : (mainLoop cfg fetch running fuelMain 0 st0).events.countP
        (fun p => isFinishedEv p.2) = 0 := by
      rw [List.countP_eq_zero]
      intro p hp
      simp [mainLoop_no_finished cfg fetch running fuelMain 0 st0 p hp]
    simp only [List.countP_cons, List.countP_append, h0]
    simp [isFinishedEv]
  · exact ⟨tF, by simp⟩
  · intro p hp hprog
    rcases List.mem_cons.mp hp with h1 | h1
    · subst h1
      simp [isProgressEv] at hprog
    · rcases List.mem_append.mp h1 with h2 | h2
      · exact mainLoop_events_running cfg fetch running fuelMain 0 st0 p h2
      · rcases List.mem_cons.mp h2 with h3 | h3
        · subst h3
          simp [isProgressEv] at hprog
        · rcases List.mem_cons.mp h3 with h4 | h4
          · subst h4
            simp [isProgressEv] at hprog
          · simp at h4

/-- Claim C9 witness: a concrete session stopped after its first iteration
still emits exactly one `finished` event and no progress after the stop. -/
theorem claim_C9_stop_semantics_witness :
    ∃ stF evs, sessionRun cfg0 fetch0 runUntil1 extIdle 2 2 (initState "http://a.com/")
        = some (stF, evs) ∧
      evs.countP (fun p => isFinishedEv p.2) = 1 ∧
      (∃ tF, (tF, SockEvent.finished stF.brokenLinks) ∈ evs) ∧
      ∀ p ∈ evs, isProgressEv p.2 = true → runUntil1 p.1 = true :=
  claim_C9_stop_semantics cfg0 fetch0 runUntil1 extIdle 1 2 2 (initState "http://a.com/")
    (fun t' h => by simp [runUntil1]; omega) (by omega) (by omega)

end LinkSentinel
